import Mathlib

/-!
Verification of src/scripts/sync-cumind-docs.py against its specification.

The script is a linear sync pipeline: wipe a local docs directory, list the
Markdown files of a remote repository directory, download each one, write it
locally (prepending a title front-matter block when absent), and rewrite the
CuMind section of the mkdocs navigation.

The embedding below models the Python string primitives used by the script
(startswith, endswith, replace, title) over ASCII character lists, the local
store as an association list from filename to content, the YAML navigation
document as an inductive value, and the network as explicit data (the listing
response and a map from download URL to optional body).
-/

namespace CuMindSync

/-! ## Python string primitives -/

/-- Models Python str.startswith: the pattern's characters are a prefix. -/
def pyStartsWith (s pre : String) : Bool :=
  pre.data.isPrefixOf s.data

/-- Models Python str.endswith: the pattern's characters are a suffix. -/
def pyEndsWith (s suf : String) : Bool :=
  suf.data.isSuffixOf s.data

/-- Worker for string replacement, structurally recursive on a fuel argument
so that closed instances reduce. One unit of fuel is spent per character
position examined, and every step consumes at least one character, so fuel
equal to the input length is always sufficient. -/
def replaceAllFuel (pat rep : List Char) : Nat → List Char → List Char
  | _, [] => []
  | 0, l => l
  | fuel + 1, c :: rest =>
    if pat.isPrefixOf (c :: rest) && !pat.isEmpty then
      rep ++ replaceAllFuel pat rep fuel (rest.drop (pat.length - 1))
    else
      c :: replaceAllFuel pat rep fuel rest

/-- Models Python str.replace: replace every non-overlapping occurrence of
`pat` in `s` by `rep`, scanning left to right. (The script only calls it
with non-empty patterns.) -/
def stringReplace (s pat rep : String) : String :=
  String.mk (replaceAllFuel pat.data rep.data s.data.length s.data)

/-- Worker for Python str.title over ASCII: a letter that follows a
non-letter is uppercased, a letter that follows a letter is lowercased,
non-letters are kept. -/
def pyTitleAux : Bool → List Char → List Char
  | _, [] => []
  | prevAlpha, c :: rest =>
    if c.isAlpha then
      (if prevAlpha then c.toLower else c.toUpper) :: pyTitleAux true rest
    else
      c :: pyTitleAux false rest

/-- Models Python str.title (ASCII letters). -/
def pyTitle (s : String) : String :=
  String.mk (pyTitleAux false s.data)

/-- Lexicographic comparison of character lists by code point, with a
shorter list preceding its extensions; this is the order Python sorted()
uses on strings. -/
def listLE : List Char → List Char → Bool
  | [], _ => true
  | _ :: _, [] => false
  | a :: as, b :: bs => if a < b then true else if b < a then false else listLE as bs

/-- Models the Python string order used by sorted(). -/
def pyLE (a b : String) : Bool :=
  listLE a.data b.data

/-- Insert a string into a list, before the first element it precedes. -/
def insertSorted (x : String) : List String → List String
  | [] => [x]
  | y :: ys => if pyLE x y = true then x :: y :: ys else y :: insertSorted x ys

/-- Models Python sorted() on a list of strings (insertion sort). -/
def sortStrings (l : List String) : List String :=
  l.foldr insertSorted []

/-- Models Python truthiness of the download result: None and the empty
string are falsy, every other string is truthy. -/
def pyTruthy : Option String → Bool
  | none => false
  | some s => !(s == "")

/-! ## Data model -/

/-- One entry of the GitHub contents-API response, as used by the script:
only the name and the direct download location are read. -/
structure FileInfo where
  name : String
  download_url : String
deriving DecidableEq

/-- A YAML value, as far as the script inspects one: scalars, sequences and
mappings. Mappings keep their entries in document order. -/
inductive Yaml where
  | str : String → Yaml
  | seq : List Yaml → Yaml
  | map : List (String × Yaml) → Yaml

/-- The local CuMind docs directory: filenames with their written contents.
A directory has at most one file per name; writes overwrite by name. -/
abbrev Store := List (String × String)

/-- The filenames present in the store (os.listdir). -/
def storeKeys (s : Store) : List String :=
  s.map Prod.fst

/-- Writing a file into the directory: any previous file of that name is
replaced. -/
def store_write (s : Store) (filename content : String) : Store :=
  s.filter (fun p => !(p.1 == filename)) ++ [(filename, content)]

/-- The mkdocs.yml document, as far as the script touches it: the top-level
nav list when the key nav is present, and the remaining top-level entries,
which the script never modifies. -/
structure Config where
  others : List (String × Yaml)
  nav : Option (List Yaml)

/-- The top-level nav list of a config, empty when the key is absent. -/
def navList (cfg : Config) : List Yaml :=
  cfg.nav.getD []

/-- The check on line 105 of the script: isinstance(item, dict) with the
key CuMind among its keys. -/
def isDict : Yaml → Bool
  | .map _ => true
  | _ => false

/-- Python key membership for a dict item. -/
def dictHasKey (k : String) : Yaml → Bool
  | .map kvs => kvs.any (fun p => p.1 == k)
  | _ => false

/-- The removal condition of line 105: a dict that has CuMind among its
keys. -/
def hasCuMindKey (item : Yaml) : Bool :=
  isDict item && dictHasKey "CuMind" item

/-! ## The script, function by function -/

/-- fetch_docs_from_github (lines 19-39): the listing response is either a
transport or status error (the except branch) or a parsed JSON list; on
error the function logs and returns the empty list, on success it keeps the
entries whose name ends in .md. -/
def fetch_docs_from_github (resp : Except String (List FileInfo)) : List FileInfo :=
  match resp with
  | .error _ => []
  | .ok files => files.filter (fun f => pyEndsWith f.name ".md")

/-- download_file (lines 41-49): a plain GET on the download_url; the
network is modelled as a map from URL to optional body, none standing for
the caught RequestException branch that returns None. -/
def download_file (net : String → Option String) (file_info : FileInfo) : Option String :=
  net file_info.download_url

/-- ensure_cumind_docs_dir (lines 51-53): mkdir parents exist_ok on the
directory, modelled on the optional directory state. -/
def ensure_cumind_docs_dir : Option Store → Option Store
  | none => some []
  | some fs => some fs

/-- clean_cumind_docs_dir (lines 55-59): remove the directory recursively
when present, then recreate it. -/
def clean_cumind_docs_dir (s : Option Store) : Option Store :=
  ensure_cumind_docs_dir (if s.isSome then none else s)

/-- The title expression of lines 67 and 96:
filename.replace(.md, empty).replace(underscore, space).replace(hyphen, space).title(). -/
def deriveTitle (filename : String) : String :=
  pyTitle (stringReplace (stringReplace (stringReplace filename ".md" "") "_" " ") "-" " ")

/-- The content actually written by save_doc_file (lines 61-75): the
front-matter block is prepended unless the content already starts with the
delimiter. -/
def save_doc_file_content (filename content : String) : String :=
  if pyStartsWith content "---" = true then content
  else "---" ++ "\ntitle: " ++ deriveTitle filename ++ "\n---\n\n" ++ content

/-- save_doc_file (lines 61-77) acting on the directory. -/
def save_doc_file (s : Store) (filename content : String) : Store :=
  store_write s filename (save_doc_file_content filename content)

/-- The sorted file listing of line 87: the .md files of the directory,
sorted ascending. -/
def cumindFilesOf (s : Store) : List String :=
  sortStrings ((storeKeys s).filter (fun f => pyEndsWith f ".md"))

/-- One navigation entry of line 98: a single-pair mapping from derived
title to the path CuMind/filename. -/
def navEntry (file : String) : Yaml :=
  Yaml.map [(deriveTitle file, Yaml.str ("CuMind/" ++ file))]

/-- The freshly computed CuMind section body of lines 94-98. -/
def cumindNavOf (s : Store) : List Yaml :=
  (cumindFilesOf s).map navEntry

/-- update_mkdocs_nav (lines 79-114): early return when the directory holds
no .md files; otherwise ensure a nav list exists, drop every top-level item
that is a dict with CuMind among its keys, and append the fresh section. -/
def update_mkdocs_nav (s : Store) (cfg : Config) : Config :=
  let cumind_files := cumindFilesOf s
  if cumind_files.isEmpty then cfg
  else
    let cumind_nav := cumindNavOf s
    let nav0 : List Yaml := match cfg.nav with | none => [] | some l => l
    Config.mk cfg.others
      (some ((nav0.filter fun item => !(isDict item && dictHasKey "CuMind" item)) ++
        [Yaml.map [("CuMind", Yaml.seq cumind_nav)]]))

/-- The body of the download loop (lines 138-141): on a falsy content
(None after a failed download, or the empty string) the file is skipped,
otherwise it is saved. -/
def sync_step (net : String → Option String) (s : Store) (file_info : FileInfo) : Store :=
  match download_file net file_info with
  | none => s
  | some content => if content == "" then s else save_doc_file s file_info.name content

/-- main (lines 116-146): clean the directory, fetch the listing, stop when
it is empty, otherwise download and save each file and update the
navigation. Returns the final directory state and config. -/
def main (s0 : Option Store) (listing : Except String (List FileInfo))
    (net : String → Option String) (cfg : Config) : Option Store × Config :=
  let s1 := clean_cumind_docs_dir s0
  let md_files := fetch_docs_from_github listing
  if md_files.isEmpty then (s1, cfg)
  else
    let s2 := md_files.foldl (sync_step net) (s1.getD [])
    (some s2, update_mkdocs_nav s2 cfg)

/-! ## Definitions written from the words of the claims -/

/-- Claim C4 reading of title derivation: take the filename without its
.md extension (only a trailing occurrence is an extension), replace the
separators with spaces, title-case. -/
def claimTitleOf (f : String) : String :=
  let stem := if pyEndsWith f ".md" = true then String.mk (f.data.take (f.data.length - 3)) else f
  pyTitle (stringReplace (stringReplace stem "_" " ") "-" " ")

/-- Amended C4 reading of title derivation: remove every occurrence of the
substring .md from the filename, replace the separators with spaces,
title-case. -/
def amendedTitleOf (f : String) : String :=
  pyTitle (stringReplace (stringReplace (stringReplace f ".md" "") "_" " ") "-" " ")

/-! ## Helper lemmas -/

theorem clean_eq (s : Option Store) : clean_cumind_docs_dir s = some [] := by
  cases s <;> rfl

theorem isPrefixOf_append_self (l t : List Char) : l.isPrefixOf (l ++ t) = true := by
  induction l with
  | nil => simp [List.isPrefixOf]
  | cons c cs ih => simp [List.isPrefixOf, ih]

theorem pyStartsWith_append_self (s t : String) : pyStartsWith (s ++ t) s = true := by
  unfold pyStartsWith
  rw [String.data_append]
  exact isPrefixOf_append_self s.data t.data

theorem listLE_total : ∀ as bs : List Char, listLE as bs = true ∨ listLE bs as = true := by
  intro as
  induction as with
  | nil => intro bs; exact Or.inl rfl
  | cons a as ih =>
    intro bs
    cases bs with
    | nil => exact Or.inr rfl
    | cons b bs =>
      by_cases hab : a < b
      · exact Or.inl (by simp [listLE, hab])
      · by_cases hba : b < a
        · exact Or.inr (by simp [listLE, hba])
        · cases ih bs with
          | inl h => exact Or.inl (by simp [listLE, hab, hba, h])
          | inr h => exact Or.inr (by simp [listLE, hab, hba, h])

theorem pyLE_total (a b : String) (h : ¬ pyLE a b = true) : pyLE b a = true := by
  cases listLE_total a.data b.data with
  | inl hl => exact absurd hl h
  | inr hr => exact hr

theorem chain'_insertSorted (x : String) :
    ∀ l : List String, List.Chain' (fun a b => pyLE a b = true) l →
      List.Chain' (fun a b => pyLE a b = true) (insertSorted x l) := by
  intro l
  induction l with
  | nil => intro _; simp [insertSorted]
  | cons y ys ih =>
    intro h
    by_cases hxy : pyLE x y = true
    · simp only [insertSorted, if_pos hxy]
      exact List.chain'_cons.mpr ⟨hxy, h⟩
    · have hyx : pyLE y x = true := pyLE_total x y hxy
      simp only [insertSorted, if_neg hxy]
      cases ys with
      | nil => simp [insertSorted, hyx]
      | cons z zs =>
        have hyz : pyLE y z = true := (List.chain'_cons.mp h).1
        have htail := (List.chain'_cons.mp h).2
        by_cases hxz : pyLE x z = true
        · simp only [insertSorted, if_pos hxz]
          exact List.chain'_cons.mpr ⟨hyx, List.chain'_cons.mpr ⟨hxz, htail⟩⟩
        · simp only [insertSorted, if_neg hxz]
          exact List.chain'_cons.mpr ⟨hyz, by
            have := ih htail
            simpa [insertSorted, if_neg hxz] using this⟩

theorem perm_insertSorted (x : String) :
    ∀ l : List String, (insertSorted x l).Perm (x :: l) := by
  intro l
  induction l with
  | nil => exact List.Perm.refl _
  | cons y ys ih =>
    by_cases hxy : pyLE x y = true
    · simp only [insertSorted, if_pos hxy]
      exact List.Perm.refl _
    · simp only [insertSorted, if_neg hxy]
      exact ((ih.cons y).trans (List.Perm.swap x y ys))

theorem perm_sortStrings (l : List String) : (sortStrings l).Perm l := by
  induction l with
  | nil => exact List.Perm.refl _
  | cons a l ih =>
    have : sortStrings (a :: l) = insertSorted a (sortStrings l) := rfl
    rw [this]
    exact (perm_insertSorted a (sortStrings l)).trans (ih.cons a)

theorem chain'_sortStrings (l : List String) :
    List.Chain' (fun a b => pyLE a b = true) (sortStrings l) := by
  induction l with
  | nil => simp [sortStrings]
  | cons a l ih => exact chain'_insertSorted a (sortStrings l) ih

theorem mem_sortStrings_iff (x : String) (l : List String) :
    x ∈ sortStrings l ↔ x ∈ l :=
  (perm_sortStrings l).mem_iff

theorem countP_filter_not {α : Type} (p : α → Bool) (l : List α) :
    (l.filter fun a => !(p a)).countP p = 0 := by
  induction l with
  | nil => rfl
  | cons a l ih =>
    by_cases hpa : p a = true
    · simp [List.filter_cons, hpa, ih]
    · have hpa' : p a = false := by
        cases hp : p a
        · rfl
        · exact absurd hp hpa
      simp [List.filter_cons, hpa', List.countP_cons, ih]

theorem cumindFilesOf_isEmpty_false {s : Store} (h : cumindFilesOf s ≠ []) :
    (cumindFilesOf s).isEmpty = false := by
  cases hcf : cumindFilesOf s with
  | nil => exact absurd hcf h
  | cons a l => rfl

theorem update_nonempty_navList {s : Store} (cfg : Config) (h : cumindFilesOf s ≠ []) :
    navList (update_mkdocs_nav s cfg) =
      ((navList cfg).filter fun item => !(hasCuMindKey item)) ++
        [Yaml.map [("CuMind", Yaml.seq (cumindNavOf s))]] := by
  have hie := cumindFilesOf_isEmpty_false h
  cases hn : cfg.nav with
  | none => simp [update_mkdocs_nav, hie, navList, hn, hasCuMindKey]
  | some l => simp [update_mkdocs_nav, hie, navList, hn, hasCuMindKey]

theorem update_nonempty_others {s : Store} (cfg : Config) (h : cumindFilesOf s ≠ []) :
    (update_mkdocs_nav s cfg).others = cfg.others := by
  have hie := cumindFilesOf_isEmpty_false h
  simp [update_mkdocs_nav, hie]

theorem hasCuMindKey_fresh (v : Yaml) : hasCuMindKey (Yaml.map [("CuMind", v)]) = true := by
  simp [hasCuMindKey, isDict, dictHasKey]

theorem update_countP {s : Store} (cfg : Config) (h : cumindFilesOf s ≠ []) :
    (navList (update_mkdocs_nav s cfg)).countP hasCuMindKey = 1 := by
  rw [update_nonempty_navList cfg h, List.countP_append, countP_filter_not]
  simp [List.countP_cons, hasCuMindKey_fresh]

theorem update_empty {s : Store} (cfg : Config) (h : cumindFilesOf s = []) :
    update_mkdocs_nav s cfg = cfg := by
  simp [update_mkdocs_nav, h]

theorem mem_storeKeys_iff (s : Store) (m : String) :
    m ∈ storeKeys s ↔ ∃ p ∈ s, p.1 = m := by
  simp [storeKeys]

theorem store_write_not_mem (s : Store) (n c : String) (h : n ∉ storeKeys s) :
    store_write s n c = s ++ [(n, c)] := by
  unfold store_write
  congr 1
  apply List.filter_eq_self.mpr
  intro p hp
  have hne : p.1 ≠ n := by
    intro he
    exact h (he ▸ (mem_storeKeys_iff s p.1).mpr ⟨p, hp, rfl⟩)
  simp [hne]

theorem sync_step_truthy (net : String → Option String) (fi : FileInfo) (s : Store)
    (h : pyTruthy (download_file net fi) = true) :
    sync_step net s fi = save_doc_file s fi.name ((download_file net fi).getD "") := by
  unfold sync_step
  cases hd : download_file net fi with
  | none => rw [hd] at h; simp [pyTruthy] at h
  | some c =>
    rw [hd] at h
    have hc : (c == "") = false := by
      cases hcc : c == ""
      · rfl
      · rw [pyTruthy, hcc] at h; simp at h
    simp [hc, hd]

theorem sync_step_falsy (net : String → Option String) (fi : FileInfo) (s : Store)
    (h : pyTruthy (download_file net fi) = false) :
    sync_step net s fi = s := by
  unfold sync_step
  cases hd : download_file net fi with
  | none => rfl
  | some c =>
    rw [hd] at h
    have hc : (c == "") = true := by
      cases hcc : c == ""
      · rw [pyTruthy, hcc] at h; simp at h
      · rfl
    simp [hc]

theorem bool_eq_false_of_ne_true {b : Bool} (h : ¬ b = true) : b = false := by
  cases b
  · rfl
  · exact absurd rfl h

theorem foldl_sync_step (net : String → Option String) :
    ∀ (md : List FileInfo) (s : Store),
      (∀ fi ∈ md, fi.name ∉ storeKeys s) → (md.map FileInfo.name).Nodup →
      md.foldl (sync_step net) s =
        s ++ (md.filter fun fi => pyTruthy (download_file net fi)).map
          (fun fi => (fi.name, save_doc_file_content fi.name ((download_file net fi).getD ""))) := by
  intro md
  induction md with
  | nil => intro s _ _; simp
  | cons fi rest ih =>
    intro s hdisj hnodup
    have hnotin : fi.name ∉ List.map FileInfo.name rest := by
      rw [List.map_cons] at hnodup
      exact (List.nodup_cons.mp hnodup).1
    have hnodup' : (rest.map FileInfo.name).Nodup := by
      rw [List.map_cons] at hnodup
      exact (List.nodup_cons.mp hnodup).2
    by_cases ht : pyTruthy (download_file net fi) = true
    · rw [List.foldl_cons, sync_step_truthy net fi s ht, save_doc_file,
        store_write_not_mem s fi.name _ (hdisj fi (List.mem_cons_self _ _))]
      rw [ih (s ++ [(fi.name, save_doc_file_content fi.name ((download_file net fi).getD ""))]) ?hd ?hn]
      case hd =>
        intro g hg
        intro hmem
        rw [storeKeys, List.map_append] at hmem
        rcases List.mem_append.mp hmem with hl | hr
        · exact hdisj g (List.mem_cons_of_mem _ hg) hl
        · simp at hr
          exact hnotin (hr ▸ List.mem_map_of_mem FileInfo.name hg)
      case hn => exact hnodup'
      simp [List.filter_cons, ht]
    · have ht' := bool_eq_false_of_ne_true ht
      rw [List.foldl_cons, sync_step_falsy net fi s ht',
        ih s (fun g hg => hdisj g (List.mem_cons_of_mem _ hg)) hnodup']
      simp [List.filter_cons, ht']

theorem mem_storeKeys_sync_step (net : String → Option String) (s : Store) (fi : FileInfo)
    (m : String) (h : m ∈ storeKeys (sync_step net s fi)) :
    m ∈ storeKeys s ∨ (m = fi.name ∧ pyTruthy (download_file net fi) = true) := by
  cases hd : download_file net fi with
  | none => simp only [sync_step, hd] at h; exact Or.inl h
  | some c =>
    simp only [sync_step, hd] at h
    by_cases hc : (c == "") = true
    · rw [if_pos hc] at h
      exact Or.inl h
    · rw [if_neg hc] at h
      rcases (mem_storeKeys_iff _ m).mp h with ⟨p, hp, hpm⟩
      rcases List.mem_append.mp hp with hl | hr
      · exact Or.inl ((mem_storeKeys_iff s m).mpr ⟨p, List.mem_of_mem_filter hl, hpm⟩)
      · have hpn : p = (fi.name, save_doc_file_content fi.name c) := by simpa using hr
        refine Or.inr ⟨by rw [← hpm, hpn], ?_⟩
        simpa [pyTruthy] using hc

theorem storeKeys_sync_step_mono (net : String → Option String) (s : Store) (fi : FileInfo)
    (m : String) (h : m ∈ storeKeys s) : m ∈ storeKeys (sync_step net s fi) := by
  cases hd : download_file net fi with
  | none => simp only [sync_step, hd]; exact h
  | some c =>
    simp only [sync_step, hd]
    by_cases hc : (c == "") = true
    · rw [if_pos hc]; exact h
    · rw [if_neg hc]
      rcases (mem_storeKeys_iff s m).mp h with ⟨p, hp, hpm⟩
      by_cases hmn : m = fi.name
      · apply (mem_storeKeys_iff _ m).mpr
        exact ⟨(fi.name, save_doc_file_content fi.name c),
          List.mem_append_right _ (by simp), by rw [hmn]⟩
      · apply (mem_storeKeys_iff _ m).mpr
        refine ⟨p, List.mem_append_left _ (List.mem_filter.mpr ⟨hp, ?_⟩), hpm⟩
        have : p.1 ≠ fi.name := by rw [hpm]; exact hmn
        simp [this]

theorem mem_storeKeys_foldl_mono (net : String → Option String) :
    ∀ (md : List FileInfo) (s : Store) (m : String), m ∈ storeKeys s →
      m ∈ storeKeys (md.foldl (sync_step net) s) := by
  intro md
  induction md with
  | nil => intro s m h; exact h
  | cons fi rest ih =>
    intro s m h
    rw [List.foldl_cons]
    exact ih _ m (storeKeys_sync_step_mono net s fi m h)

theorem mem_storeKeys_foldl_of_truthy (net : String → Option String) :
    ∀ (md : List FileInfo) (s : Store) (fi : FileInfo), fi ∈ md →
      pyTruthy (download_file net fi) = true →
      fi.name ∈ storeKeys (md.foldl (sync_step net) s) := by
  intro md
  induction md with
  | nil => intro s fi h; exact absurd h (List.not_mem_nil fi)
  | cons g rest ih =>
    intro s fi hmem ht
    rw [List.foldl_cons]
    rcases List.mem_cons.mp hmem with rfl | htail
    · apply mem_storeKeys_foldl_mono
      rw [sync_step_truthy net fi s ht, save_doc_file]
      apply (mem_storeKeys_iff _ _).mpr
      exact ⟨(fi.name, save_doc_file_content fi.name ((download_file net fi).getD "")),
        List.mem_append_right _ (by simp), rfl⟩
    · exact ih _ fi htail ht

theorem mem_storeKeys_foldl (net : String → Option String) :
    ∀ (md : List FileInfo) (s : Store) (m : String),
      m ∈ storeKeys (md.foldl (sync_step net) s) →
      m ∈ storeKeys s ∨ ∃ fi ∈ md, fi.name = m ∧ pyTruthy (download_file net fi) = true := by
  intro md
  induction md with
  | nil => intro s m h; exact Or.inl h
  | cons fi rest ih =>
    intro s m h
    rw [List.foldl_cons] at h
    rcases ih _ m h with hs | ⟨g, hg, hgm, hgt⟩
    · rcases mem_storeKeys_sync_step net s fi m hs with hss | ⟨rfl, ht⟩
      · exact Or.inl hss
      · exact Or.inr ⟨fi, List.mem_cons_self _ _, rfl, ht⟩
    · exact Or.inr ⟨g, List.mem_cons_of_mem _ hg, hgm, hgt⟩

theorem string_append_left_cancel {s t u : String} (h : s ++ t = s ++ u) : t = u := by
  have hd := congrArg String.data h
  rw [String.data_append, String.data_append] at hd
  exact String.ext (List.append_cancel_left hd)

theorem navEntry_inj {a b : String} (h : navEntry a = navEntry b) : a = b := by
  simp only [navEntry, Yaml.map.injEq, List.cons.injEq, Prod.mk.injEq, Yaml.str.injEq,
    and_true] at h
  exact string_append_left_cancel h.2

theorem fetch_endsWith (listing : Except String (List FileInfo)) (fi : FileInfo)
    (h : fi ∈ fetch_docs_from_github listing) : pyEndsWith fi.name ".md" = true := by
  cases listing with
  | error e => simp [fetch_docs_from_github] at h
  | ok files => exact (List.mem_filter.mp h).2

theorem main_empty (s0 : Option Store) (listing : Except String (List FileInfo))
    (net : String → Option String) (cfg : Config)
    (h : fetch_docs_from_github listing = []) :
    main s0 listing net cfg = (some [], cfg) := by
  simp [main, h, clean_eq]

theorem fetch_isEmpty_false {listing : Except String (List FileInfo)}
    (h : fetch_docs_from_github listing ≠ []) :
    (fetch_docs_from_github listing).isEmpty = false := by
  cases hf : fetch_docs_from_github listing with
  | nil => exact absurd hf h
  | cons a l => rfl

theorem main_nonempty (s0 : Option Store) (listing : Except String (List FileInfo))
    (net : String → Option String) (cfg : Config)
    (h : fetch_docs_from_github listing ≠ []) :
    main s0 listing net cfg =
      (some ((fetch_docs_from_github listing).foldl (sync_step net) []),
       update_mkdocs_nav ((fetch_docs_from_github listing).foldl (sync_step net) []) cfg) := by
  simp [main, fetch_isEmpty_false h, clean_eq]

theorem filter_not_filter {α : Type} (p : α → Bool) (l : List α) :
    (l.filter fun a => !(p a)).filter p = [] := by
  induction l with
  | nil => rfl
  | cons a l ih =>
    by_cases hpa : p a = true
    · simp [List.filter_cons, hpa, ih]
    · have hpa' := bool_eq_false_of_ne_true hpa
      simp [List.filter_cons, hpa', ih]

/-! ## The claims -/

/-- C9: the reset operation of the store is total over the presence of the
destination directory and idempotent: from every starting state, including
an absent directory, it succeeds and yields an existing, empty directory,
and applying it twice equals applying it once. -/
theorem C9_reset_idempotent : ∀ s : Option Store,
    clean_cumind_docs_dir s = some [] ∧
    (clean_cumind_docs_dir s).isSome = true ∧
    clean_cumind_docs_dir (clean_cumind_docs_dir s) = clean_cumind_docs_dir s := by
  intro s
  refine ⟨clean_eq s, ?_, ?_⟩
  · rw [clean_eq s]; rfl
  · rw [clean_eq s, clean_eq (some [])]

/-- C7: on every transport or non-success-status error the remote lister
returns the empty result set instead of raising, and on success it returns
exactly the listed entries whose name ends with .md. -/
theorem C7_lister_absorbs_errors :
    (∀ msg : String, fetch_docs_from_github (Except.error msg) = []) ∧
    (∀ (files : List FileInfo) (fi : FileInfo),
      fi ∈ fetch_docs_from_github (Except.ok files) ↔
        fi ∈ files ∧ pyEndsWith fi.name ".md" = true) := by
  constructor
  · intro msg; rfl
  · intro files fi; exact List.mem_filter

/-- C5: when the remote listing is empty the run ends with the local store
wiped and empty, and the navigation configuration is returned unchanged,
with no section entry added. -/
theorem C5_empty_listing_no_mutation (s0 : Option Store)
    (listing : Except String (List FileInfo)) (net : String → Option String) (cfg : Config)
    (h : fetch_docs_from_github listing = []) :
    (main s0 listing net cfg).1 = some [] ∧ (main s0 listing net cfg).2 = cfg := by
  rw [main_empty s0 listing net cfg h]
  exact ⟨rfl, rfl⟩

theorem C5_empty_listing_no_mutation_witness :
    fetch_docs_from_github (Except.ok ([] : List FileInfo)) = [] ∧
    ((main none (Except.ok ([] : List FileInfo)) (fun _ => none)
        (Config.mk [("site_name", Yaml.str "docs")] none)).1 = some [] ∧
      (main none (Except.ok ([] : List FileInfo)) (fun _ => none)
        (Config.mk [("site_name", Yaml.str "docs")] none)).2 =
        Config.mk [("site_name", Yaml.str "docs")] none) :=
  ⟨rfl, C5_empty_listing_no_mutation none (Except.ok []) (fun _ => none)
    (Config.mk [("site_name", Yaml.str "docs")] none) rfl⟩

/-- C3: for every filename and content, the written content begins with the
metadata-block delimiter; content that already begins with the delimiter is
written unmodified, otherwise the derived-title block is prepended. -/
theorem C3_written_content_has_frontmatter (filename content : String) :
    pyStartsWith (save_doc_file_content filename content) "---" = true ∧
    save_doc_file_content filename content =
      (if pyStartsWith content "---" = true then content
       else "---" ++ "\ntitle: " ++ deriveTitle filename ++ "\n---\n\n" ++ content) := by
  constructor
  · by_cases h : pyStartsWith content "---" = true
    · simp only [save_doc_file_content, if_pos h]
      exact h
    · simp only [save_doc_file_content, if_neg h]
      exact pyStartsWith_append_self "---" _
  · rfl

/-- C4 counterexample: the claim reads title derivation as stripping the
extension, but the code removes every occurrence of the substring .md, so
on the filename a.md.md the code yields A while the claimed reading yields
A.Md. -/
theorem C4_title_counterexample :
    deriveTitle "a.md.md" = "A" ∧ claimTitleOf "a.md.md" = "A.Md" ∧
    deriveTitle "a.md.md" ≠ claimTitleOf "a.md.md" :=
  ⟨by decide, by decide, by decide⟩

/-- C4 amended: title derivation is the pure function that removes every
occurrence of the substring .md from the filename (not only a trailing
extension), replaces the separators with spaces and title-cases; in
particular it maps my_file-name.md to My File Name. -/
theorem C4_amended_title_derivation :
    (∀ f : String, deriveTitle f = amendedTitleOf f) ∧
    deriveTitle "my_file-name.md" = "My File Name" :=
  ⟨fun _ => rfl, by decide⟩

/-- C2 counterexample: a multi-key mapping that contains the section-name
key among others is removed by the merge, although the claim states it is
left in place. -/
theorem C2_multikey_counterexample :
    Yaml.map [("CuMind", Yaml.str "old"), ("Docs", Yaml.str "d")] ∉
      navList (update_mkdocs_nav [("a.md", "x")]
        (Config.mk [] (some [Yaml.map [("CuMind", Yaml.str "old"), ("Docs", Yaml.str "d")]]))) := by
  intro h
  rw [show navList (update_mkdocs_nav [("a.md", "x")]
      (Config.mk [] (some [Yaml.map [("CuMind", Yaml.str "old"), ("Docs", Yaml.str "d")]]))) =
    [Yaml.map [("CuMind", Yaml.seq [Yaml.map [("A", Yaml.str "CuMind/a.md")]])]] from rfl] at h
  simp at h

/-- C2 amended: during the merge, exactly those top-level entries that are
mappings containing the section-name key among their keys (single- or
multi-key) are removed; every other entry is kept, and the one fresh
section entry is appended. -/
theorem C2_amended_nav_filter (s : Store) (cfg : Config) (h : cumindFilesOf s ≠ []) :
    (∀ item ∈ navList cfg, hasCuMindKey item = false →
      item ∈ navList (update_mkdocs_nav s cfg)) ∧
    (∀ item : Yaml, hasCuMindKey item = true →
      item ∈ navList (update_mkdocs_nav s cfg) →
      item = Yaml.map [("CuMind", Yaml.seq (cumindNavOf s))]) ∧
    Yaml.map [("CuMind", Yaml.seq (cumindNavOf s))] ∈ navList (update_mkdocs_nav s cfg) := by
  rw [update_nonempty_navList cfg h]
  refine ⟨?_, ?_, ?_⟩
  · intro item hmem hfalse
    exact List.mem_append_left _ (List.mem_filter.mpr ⟨hmem, by simp [hfalse]⟩)
  · intro item htrue hmem
    rcases List.mem_append.mp hmem with hl | hr
    · have h2 := (List.mem_filter.mp hl).2
      rw [htrue] at h2
      simp at h2
    · simpa using hr
  · exact List.mem_append_right _ (by simp)

theorem C2_amended_nav_filter_witness :
    cumindFilesOf [("a.md", "x")] ≠ [] ∧
    Yaml.map [("CuMind", Yaml.seq (cumindNavOf [("a.md", "x")]))] ∈
      navList (update_mkdocs_nav [("a.md", "x")] (Config.mk [] (some []))) :=
  ⟨by decide, (C2_amended_nav_filter [("a.md", "x")] (Config.mk [] (some []))
    (by decide)).2.2⟩

/-- C8: re-running the merge against a configuration that already contains
a stale section entry with different contents removes that entry wholesale:
the stale entry is gone from the result, and the only entry keyed by the
section name in the result carries the freshly computed list. -/
theorem C8_stale_section_replaced (s : Store) (cfg : Config) (staleVal : Yaml)
    (h : cumindFilesOf s ≠ [])
    (_hmem : Yaml.map [("CuMind", staleVal)] ∈ navList cfg)
    (hne : staleVal ≠ Yaml.seq (cumindNavOf s)) :
    Yaml.map [("CuMind", staleVal)] ∉ navList (update_mkdocs_nav s cfg) ∧
    (navList (update_mkdocs_nav s cfg)).filter hasCuMindKey =
      [Yaml.map [("CuMind", Yaml.seq (cumindNavOf s))]] := by
  rw [update_nonempty_navList cfg h]
  constructor
  · intro hmem2
    rcases List.mem_append.mp hmem2 with hl | hr
    · have h2 := (List.mem_filter.mp hl).2
      rw [hasCuMindKey_fresh] at h2
      simp at h2
    · have h3 : Yaml.map [("CuMind", staleVal)] =
          Yaml.map [("CuMind", Yaml.seq (cumindNavOf s))] := by simpa using hr
      exact hne (by simpa using h3)
  · rw [List.filter_append, filter_not_filter]
    simp [hasCuMindKey_fresh]

theorem C8_stale_section_replaced_witness :
    cumindFilesOf [("a.md", "x")] ≠ [] ∧
    (navList (update_mkdocs_nav [("a.md", "x")]
        (Config.mk [] (some [Yaml.map [("CuMind", Yaml.str "old")]])))).filter hasCuMindKey =
      [Yaml.map [("CuMind", Yaml.seq (cumindNavOf [("a.md", "x")]))]] :=
  ⟨by decide, (C8_stale_section_replaced [("a.md", "x")]
      (Config.mk [] (some [Yaml.map [("CuMind", Yaml.str "old")]])) (Yaml.str "old")
      (by decide) (List.mem_cons_self _ _) (by simp)).2⟩

/-- C1 counterexample: against an unchanged but empty remote document set,
running the sync twice leaves the nav list without any entry keyed by the
section name, so the claimed "exactly one entry" part fails. -/
theorem C1_counterexample_empty_remote :
    ¬ ((navList (main (main none (Except.ok []) (fun _ => none) (Config.mk [] none)).1
        (Except.ok []) (fun _ => none)
        (main none (Except.ok []) (fun _ => none) (Config.mk [] none)).2).2).countP
          hasCuMindKey = 1) := by
  decide

/-- C1 amended: running the sync twice against an unchanged remote document
set yields a byte-identical local store, and, provided at least one listed
file downloads with non-empty content, the resulting nav list contains
exactly one entry keyed by the section name. -/
theorem C1_amended_idempotent_sync (s0 : Option Store)
    (listing : Except String (List FileInfo)) (net : String → Option String) (cfg : Config) :
    (main (main s0 listing net cfg).1 listing net (main s0 listing net cfg).2).1 =
      (main s0 listing net cfg).1 ∧
    ((∃ fi ∈ fetch_docs_from_github listing, pyTruthy (download_file net fi) = true) →
      (navList (main (main s0 listing net cfg).1 listing net
        (main s0 listing net cfg).2).2).countP hasCuMindKey = 1) := by
  by_cases hfe : fetch_docs_from_github listing = []
  · constructor
    · rw [main_empty s0 listing net cfg hfe, main_empty _ _ _ _ hfe]
    · rintro ⟨fi, hfi, _⟩
      rw [hfe] at hfi
      exact absurd hfi (List.not_mem_nil fi)
  · constructor
    · rw [main_nonempty s0 listing net cfg hfe, main_nonempty _ _ _ _ hfe]
    · rintro ⟨fi, hfi, ht⟩
      rw [main_nonempty s0 listing net cfg hfe, main_nonempty _ _ _ _ hfe]
      apply update_countP
      have hname : fi.name ∈
          storeKeys ((fetch_docs_from_github listing).foldl (sync_step net) []) :=
        mem_storeKeys_foldl_of_truthy net _ [] fi hfi ht
      have hend := fetch_endsWith listing fi hfi
      intro hnil
      have hmem : fi.name ∈
          cumindFilesOf ((fetch_docs_from_github listing).foldl (sync_step net) []) := by
        rw [cumindFilesOf, mem_sortStrings_iff]
        exact List.mem_filter.mpr ⟨hname, hend⟩
      rw [hnil] at hmem
      exact List.not_mem_nil _ hmem

theorem C1_amended_idempotent_sync_witness :
    (∃ fi ∈ fetch_docs_from_github (Except.ok [FileInfo.mk "a.md" "ua"]),
      pyTruthy (download_file (fun _ => some "hello") fi) = true) ∧
    (navList (main (main none (Except.ok [FileInfo.mk "a.md" "ua"]) (fun _ => some "hello")
        (Config.mk [] none)).1 (Except.ok [FileInfo.mk "a.md" "ua"]) (fun _ => some "hello")
        (main none (Except.ok [FileInfo.mk "a.md" "ua"]) (fun _ => some "hello")
          (Config.mk [] none)).2).2).countP hasCuMindKey = 1 :=
  ⟨by decide, (C1_amended_idempotent_sync none (Except.ok [FileInfo.mk "a.md" "ua"])
      (fun _ => some "hello") (Config.mk [] none)).2 (by decide)⟩

/-- C6 counterexample: two listed files, the first fails to download and
the second succeeds but with empty content; the claim promises a store of
one file, yet the store ends empty because the falsy-content check also
skips the empty download. -/
theorem C6_counterexample_empty_content :
    storeKeys (((main none (Except.ok [FileInfo.mk "a.md" "ua", FileInfo.mk "b.md" "ub"])
        (fun u => if u == "ua" then none else some "") (Config.mk [] none)).1).getD []) = [] ∧
    ¬ (storeKeys (((main none (Except.ok [FileInfo.mk "a.md" "ua", FileInfo.mk "b.md" "ub"])
        (fun u => if u == "ua" then none else some "") (Config.mk [] none)).1).getD [])).length
        = 1 :=
  ⟨by decide, by decide⟩

/-- C6 amended: when the listed files have pairwise-distinct names, exactly
one of them fails to download and every other one succeeds with non-empty
content, the run continues past the failure, the store ends with exactly
the successfully fetched files, and the recomputed navigation section holds
one (title, path) entry per stored file, in ascending filename order. -/
theorem C6_amended_partial_sync (s0 : Option Store)
    (listing : Except String (List FileInfo)) (net : String → Option String) (cfg : Config)
    (A B : List FileInfo) (bad : FileInfo)
    (hmd : fetch_docs_from_github listing = A ++ bad :: B)
    (hA : ∀ fi ∈ A ++ B, pyTruthy (download_file net fi) = true)
    (hbad : download_file net bad = none)
    (hnodup : ((A ++ bad :: B).map FileInfo.name).Nodup)
    (hne : A ++ B ≠ []) :
    storeKeys (((main s0 listing net cfg).1).getD []) = (A ++ B).map FileInfo.name ∧
    ∃ S : List String, S.Perm ((A ++ B).map FileInfo.name) ∧
      List.Chain' (fun a b => pyLE a b = true) S ∧
      (navList (main s0 listing net cfg).2).countP hasCuMindKey = 1 ∧
      Yaml.map [("CuMind", Yaml.seq (S.map navEntry))] ∈ navList (main s0 listing net cfg).2 := by
  have hfe : fetch_docs_from_github listing ≠ [] := by
    rw [hmd]
    cases A <;> simp
  rw [main_nonempty s0 listing net cfg hfe]
  have hbadf : pyTruthy (download_file net bad) = false := by rw [hbad]; rfl
  have hfilter : (A ++ bad :: B).filter (fun fi => pyTruthy (download_file net fi)) = A ++ B := by
    rw [List.filter_append, List.filter_cons, hbadf]
    rw [List.filter_eq_self.mpr fun fi hfi => hA fi (List.mem_append_left _ hfi),
      List.filter_eq_self.mpr fun fi hfi => hA fi (List.mem_append_right _ hfi)]
    simp
  have hstore : (fetch_docs_from_github listing).foldl (sync_step net) [] =
      (A ++ B).map (fun fi =>
        (fi.name, save_doc_file_content fi.name ((download_file net fi).getD ""))) := by
    rw [hmd, foldl_sync_step net _ [] (by intro fi _; simp [storeKeys]) (by rw [← hmd]; rw [hmd]; exact hnodup)]
    rw [hfilter]
    simp
  have hkeys : storeKeys ((fetch_docs_from_github listing).foldl (sync_step net) []) =
      (A ++ B).map FileInfo.name := by
    rw [hstore, storeKeys, List.map_map]
    rfl
  have hends : ∀ f ∈ (A ++ B).map FileInfo.name, pyEndsWith f ".md" = true := by
    intro f hf
    rcases List.mem_map.mp hf with ⟨fi, hfi, rfl⟩
    apply fetch_endsWith listing fi
    rw [hmd]
    rcases List.mem_append.mp hfi with hl | hr
    · exact List.mem_append_left _ hl
    · exact List.mem_append_right _ (List.mem_cons_of_mem _ hr)
  have hcf : cumindFilesOf ((fetch_docs_from_github listing).foldl (sync_step net) []) =
      sortStrings ((A ++ B).map FileInfo.name) := by
    rw [cumindFilesOf, hkeys, List.filter_eq_self.mpr hends]
  have hcfne : cumindFilesOf ((fetch_docs_from_github listing).foldl (sync_step net) []) ≠ [] := by
    rw [hcf]
    intro hnil
    have hlen := (perm_sortStrings ((A ++ B).map FileInfo.name)).length_eq
    rw [hnil] at hlen
    have hmapne : (A ++ B).map FileInfo.name ≠ [] := fun h0 => hne (List.map_eq_nil_iff.mp h0)
    exact hmapne (List.length_eq_zero.mp hlen.symm)
  refine ⟨hkeys, cumindFilesOf ((fetch_docs_from_github listing).foldl (sync_step net) []),
    ?_, ?_, ?_, ?_⟩
  · rw [hcf]
    exact perm_sortStrings _
  · rw [hcf]
    exact chain'_sortStrings _
  · exact update_countP cfg hcfne
  · rw [update_nonempty_navList cfg hcfne]
    exact List.mem_append_right _ (by simp [cumindNavOf])

theorem C6_amended_partial_sync_witness :
    storeKeys (((main none (Except.ok [FileInfo.mk "b.md" "ub", FileInfo.mk "a.md" "ua"])
        (fun u => if u == "ub" then some "hello" else none) (Config.mk [] none)).1).getD []) =
      ["b.md"] :=
  (C6_amended_partial_sync none
    (Except.ok [FileInfo.mk "b.md" "ub", FileInfo.mk "a.md" "ua"])
    (fun u => if u == "ub" then some "hello" else none) (Config.mk [] none)
    [FileInfo.mk "b.md" "ub"] [] (FileInfo.mk "a.md" "ua")
    (by decide) (by decide) (by decide) (by decide) (by decide)).1

/-- C10: a remote file whose download yields no content (a failure) or the
empty string is skipped by the falsy-content check: locally, the loop step
leaves the store unchanged on such a file, and globally its name is neither
written to the store nor represented in the recomputed navigation
section. -/
theorem C10_empty_content_skipped (net : String → Option String) (s0 : Option Store)
    (listing : Except String (List FileInfo)) (cfg : Config) (name : String)
    (h : ∀ fi ∈ fetch_docs_from_github listing, fi.name = name →
      download_file net fi = none ∨ download_file net fi = some "") :
    name ∉ storeKeys (((main s0 listing net cfg).1).getD []) ∧
    navEntry name ∉ cumindNavOf (((main s0 listing net cfg).1).getD []) ∧
    (∀ (s : Store) (fi : FileInfo), fi ∈ fetch_docs_from_github listing → fi.name = name →
      sync_step net s fi = s) := by
  have hfalsy : ∀ fi ∈ fetch_docs_from_github listing, fi.name = name →
      pyTruthy (download_file net fi) = false := by
    intro fi hfi hn
    rcases h fi hfi hn with hd | hd <;> rw [hd] <;> rfl
  have hstep : ∀ (s : Store) (fi : FileInfo), fi ∈ fetch_docs_from_github listing →
      fi.name = name → sync_step net s fi = s := by
    intro s fi hfi hn
    exact sync_step_falsy net fi s (hfalsy fi hfi hn)
  by_cases hfe : fetch_docs_from_github listing = []
  · rw [main_empty s0 listing net cfg hfe]
    exact ⟨by simp [storeKeys], by simp [cumindNavOf, cumindFilesOf, storeKeys, sortStrings], hstep⟩
  · rw [main_nonempty s0 listing net cfg hfe]
    have hnot : name ∉ storeKeys ((fetch_docs_from_github listing).foldl (sync_step net) []) := by
      intro hmem
      rcases mem_storeKeys_foldl net _ [] name hmem with h0 | ⟨fi, hfi, hfn, ht⟩
      · simp [storeKeys] at h0
      · rw [hfalsy fi hfi hfn] at ht
        simp at ht
    refine ⟨hnot, ?_, hstep⟩
    intro hmem
    simp only [cumindNavOf] at hmem
    rcases List.mem_map.mp hmem with ⟨g, hg, hge⟩
    have hgn : g = name := navEntry_inj hge
    rw [hgn, cumindFilesOf, mem_sortStrings_iff] at hg
    exact hnot (List.mem_filter.mp hg).1

theorem C10_empty_content_skipped_witness :
    "a.md" ∉ storeKeys (((main none (Except.ok [FileInfo.mk "a.md" "ua"])
        (fun _ => some "") (Config.mk [] none)).1).getD []) ∧
    navEntry "a.md" ∉ cumindNavOf (((main none (Except.ok [FileInfo.mk "a.md" "ua"])
        (fun _ => some "") (Config.mk [] none)).1).getD []) :=
  ⟨(C10_empty_content_skipped (fun _ => some "") none (Except.ok [FileInfo.mk "a.md" "ua"])
      (Config.mk [] none) "a.md" (by decide)).1,
   (C10_empty_content_skipped (fun _ => some "") none (Except.ok [FileInfo.mk "a.md" "ua"])
      (Config.mk [] none) "a.md" (by decide)).2.1⟩

end CuMindSync
